import Mathlib

/-!
Verification of the hyperseek search engine's text-processing, indexing and
search components, shallowly embedded in Lean 4.

Python strings are embedded as `List Char` (called `Str` below); Python
floats are embedded as `ℚ` except where a genuine logarithm is needed, in
which case `ℝ` with `Real.log` is used.  External libraries (NLTK stemmer and
stopword list, hashlib md5, the embedding model, the LLM) are not part of the
repository and are taken as function parameters.
-/

namespace Hyperseek

/-- Python `str` is modelled as a list of characters. -/
abbrev Str := List Char

/-! ### Lexicographic order on strings

Python compares strings lexicographically by code points; `lexLe` is that
comparison on `Str`. -/

/-- Python string `<=`: lexicographic by character code points. -/
def lexLe : Str → Str → Bool
  | [], _ => true
  | _ :: _, [] => false
  | a :: as, b :: bs => if a < b then true else if a = b then lexLe as bs else false

theorem lexLe_refl (a : Str) : lexLe a a = true := by
  induction a with
  | nil => rfl
  | cons c cs ih => simp [lexLe, ih]

theorem lexLe_total (a b : Str) : lexLe a b || lexLe b a := by
  induction a generalizing b with
  | nil => simp [lexLe]
  | cons c cs ih =>
    cases b with
    | nil => simp [lexLe]
    | cons d ds =>
      by_cases hcd : c < d
      · simp [lexLe, hcd]
      · by_cases hdc : d < c
        · have hne : ¬ d = c := ne_of_lt hdc
          have hne2 : ¬ c = d := fun h => hne h.symm
          simp [lexLe, hcd, hdc, hne, hne2]
        · have hcd2 : c = d := le_antisymm (not_lt.mp hdc) (not_lt.mp hcd)
          subst hcd2
          have := ih ds
          simp [lexLe, hcd] at this ⊢
          exact this

theorem lexLe_trans (a b c : Str) (hab : lexLe a b = true) (hbc : lexLe b c = true) :
    lexLe a c = true := by
  induction a generalizing b c with
  | nil => rfl
  | cons x xs ih =>
    cases b with
    | nil => simp [lexLe] at hab
    | cons y ys =>
      cases c with
      | nil => simp [lexLe] at hbc
      | cons z zs =>
        simp only [lexLe] at hab hbc ⊢
        by_cases hxy : x < y
        · by_cases hyz : y < z
          · simp [lt_trans hxy hyz]
          · by_cases hyz2 : y = z
            · subst hyz2; simp [hxy]
            · simp [hyz, hyz2] at hbc
        · by_cases hxy2 : x = y
          · subst hxy2
            by_cases hyz : x < z
            · simp [hyz]
            · by_cases hyz2 : x = z
              · subst hyz2
                simp [hxy] at hab hbc ⊢
                exact ih _ _ hab hbc
              · simp [hyz, hyz2] at hbc
          · simp [hxy, hxy2] at hab

theorem lexLe_antisymm (a b : Str) (hab : lexLe a b = true) (hba : lexLe b a = true) :
    a = b := by
  induction a generalizing b with
  | nil =>
    cases b with
    | nil => rfl
    | cons y ys => simp [lexLe] at hba
  | cons x xs ih =>
    cases b with
    | nil => simp [lexLe] at hab
    | cons y ys =>
      simp only [lexLe] at hab hba
      by_cases hxy : x < y
      · have : ¬ y < x := asymm hxy
        have hne : ¬ y = x := ne_of_gt hxy
        simp [this, hne] at hba
      · by_cases hxy2 : x = y
        · subst hxy2
          simp [hxy] at hab hba
          rw [ih _ hab hba]
        · simp [hxy, hxy2] at hab

/-! ### Splitting and joining

`alnumRuns` embeds Python `re.findall("[a-zA-Z0-9]+", s)`: splitting at every
non-alphanumeric character and discarding the empty pieces leaves exactly the
maximal alphanumeric runs.  `splitWs` embeds Python `str.split()` (split on
whitespace runs, dropping empties) the same way, and `joinWords` embeds
`" ".join(ws)`. -/

/-- Membership in the regex class `[a-zA-Z0-9]`. -/
def isTokenChar (c : Char) : Bool :=
  ('a' ≤ c && c ≤ 'z') || ('A' ≤ c && c ≤ 'Z') || ('0' ≤ c && c ≤ '9')

/-- Python `re.findall("[a-zA-Z0-9]+", s)`. -/
def alnumRuns (s : Str) : List Str :=
  (s.splitOnP (fun c => !isTokenChar c)).filter (fun r => !r.isEmpty)

/-- Python `str.split()` with no separator argument. -/
def splitWs (s : Str) : List Str :=
  (s.splitOnP (fun c => c.isWhitespace)).filter (fun r => !r.isEmpty)

/-- Python `" ".join(ws)`. -/
def joinWords : List Str → Str
  | [] => []
  | [w] => w
  | w :: ws => w ++ ' ' :: joinWords ws

/-! ### TextProcessor (src/app/services/indexer/text_processor.py)

The NLTK stopword set and the Porter stemmer are external resources; they are
taken as parameters `stops : Str → Bool` and `stemmer : Str → Str`. -/

/-- TextProcessor.MIN_TOKEN_LENGTH. -/
def MIN_TOKEN_LENGTH : ℕ := 2

/-- TextProcessor.MAX_TOKEN_LENGTH. -/
def MAX_TOKEN_LENGTH : ℕ := 50

/-- TextProcessor.tokenize: lowercase, find alphanumeric runs, keep those of
length between MIN_TOKEN_LENGTH and MAX_TOKEN_LENGTH. -/
def tokenize (s : Str) : List Str :=
  (alnumRuns (s.map Char.toLower)).filter
    (fun t => decide (MIN_TOKEN_LENGTH ≤ t.length) && decide (t.length ≤ MAX_TOKEN_LENGTH))

/-- TextProcessor.remove_stopwords. -/
def remove_stopwords (stops : Str → Bool) (tokens : List Str) : List Str :=
  tokens.filter (fun t => !stops t)

/-- TextProcessor.stem: apply the (Porter) stemmer to every token. -/
def stem (stemmer : Str → Str) (tokens : List Str) : List Str :=
  tokens.map stemmer

/-- TextProcessor.process: tokenize, remove stopwords, optionally stem. -/
def process (stops : Str → Bool) (stemmer : Str → Str) (s : Str) (doStem : Bool) :
    List Str :=
  let tokens := tokenize s
  let tokens := remove_stopwords stops tokens
  if doStem then stem stemmer tokens else tokens

/-- TextProcessor.process_with_positions: enumerate the raw tokens, keep the
non-stopwords, pairing each stemmed token with its original word position. -/
def process_with_positions (stops : Str → Bool) (stemmer : Str → Str) (s : Str) :
    List (Str × ℕ) :=
  (tokenize s).enum.filterMap
    (fun p => if stops p.2 then none else some (stemmer p.2, p.1))

theorem enumFrom_filterMap_fst (stops : Str → Bool) (stemmer : Str → Str) :
    ∀ (l : List Str) (n : ℕ),
      ((l.enumFrom n).filterMap
          (fun p => if stops p.2 then none else some (stemmer p.2, p.1))).map Prod.fst
        = (l.filter (fun t => !stops t)).map stemmer := by
  intro l
  induction l with
  | nil => intro n; rfl
  | cons t ts ih =>
    intro n
    by_cases h : stops t
    · simp [List.enumFrom, List.filterMap_cons, h, List.filter_cons, ih]
    · simp [List.enumFrom, List.filterMap_cons, h, List.filter_cons, ih]

/-- C2: for every text, stopword set and stemmer, the multiset of stemmed
tokens produced by process_with_positions (its first components) equals the
multiset produced by process with stemming enabled. -/
theorem c2_process_with_positions_tokens (stops : Str → Bool) (stemmer : Str → Str)
    (s : Str) :
    (((process_with_positions stops stemmer s).map Prod.fst : List Str) : Multiset Str)
      = ((process stops stemmer s true : List Str) : Multiset Str) := by
  have hl : ((process_with_positions stops stemmer s).map Prod.fst : List Str)
      = process stops stemmer s true := by
    unfold process_with_positions process remove_stopwords stem
    simpa [List.enum] using enumFrom_filterMap_fst stops stemmer (tokenize s) 0
  rw [hl]

/-! ### Hybrid search (src/app/services/search/hybrid.py)

The two fetched result lists are modelled by their sequences of document ids.
`rankMap` embeds the Python loop
`for rank, result in enumerate(results, 1): ranks[result.document_id] = rank`
as a fold of pointwise updates, and `rrfScore` embeds the per-document RRF
accumulation `score += 1.0 / (k + rank)` over the two rank maps. -/

/-- Fold of the rank-assignment loop body over enumerated (0-based) entries;
the stored rank is the 1-based position. -/
def updateRanks (m : Str → Option ℕ) (ps : List (ℕ × Str)) : Str → Option ℕ :=
  ps.foldl (fun m p => Function.update m p.2 (some (p.1 + 1))) m

/-- Rank map of a fetched result list: document id to 1-based rank. -/
def rankMap (l : List Str) : Str → Option ℕ :=
  updateRanks (fun _ => none) l.enum

/-- Contribution of one ranking list to a document's RRF score. -/
def rrfContrib (k : ℚ) (r : Option ℕ) : ℚ :=
  match r with
  | some rank => 1 / (k + (rank : ℚ))
  | none => 0

/-- RRF score of document d as computed in hybrid_search. -/
def rrfScore (k : ℚ) (bm25List semList : List Str) (d : Str) : ℚ :=
  rrfContrib k (rankMap bm25List d) + rrfContrib k (rankMap semList d)

theorem updateRanks_not_mem (m : Str → Option ℕ) (d : Str) :
    ∀ ps : List (ℕ × Str), (∀ p ∈ ps, p.2 ≠ d) → updateRanks m ps d = m d := by
  intro ps
  induction ps generalizing m with
  | nil => intro _; rfl
  | cons q rest ih =>
    intro h
    have hq : q.2 ≠ d := h q (List.mem_cons_self q rest)
    have : updateRanks m (q :: rest) d
        = updateRanks (Function.update m q.2 (some (q.1 + 1))) rest d := rfl
    rw [this, ih _ (fun p hp => h p (List.mem_cons_of_mem q hp))]
    simp [Function.update, hq.symm]

theorem updateRanks_mem (d : Str) (i : ℕ) :
    ∀ (ps : List (ℕ × Str)) (m : Str → Option ℕ),
      (∃ p ∈ ps, p.2 = d) → (∀ p ∈ ps, p.2 = d → p.1 = i) →
      updateRanks m ps d = some (i + 1) := by
  intro ps
  induction ps with
  | nil => intro m hmem _; simp at hmem
  | cons q rest ih =>
    intro m hmem hall
    have hstep : updateRanks m (q :: rest) d
        = updateRanks (Function.update m q.2 (some (q.1 + 1))) rest d := rfl
    by_cases hrest : ∃ p ∈ rest, p.2 = d
    · rw [hstep]
      exact ih _ hrest (fun p hp hpd => hall p (List.mem_cons_of_mem q hp) hpd)
    · have hq : q.2 = d := by
        rcases hmem with ⟨p, hp, hpd⟩
        rcases List.mem_cons.mp hp with h1 | h2
        · rw [← h1]; exact hpd
        · exact absurd ⟨p, h2, hpd⟩ hrest
      have hqi : q.1 = i := hall q (List.mem_cons_self q rest) hq
      rw [hstep, updateRanks_not_mem _ _ _ (fun p hp hpd => hrest ⟨p, hp, hpd⟩)]
      simp [Function.update, hq, hqi]

theorem rankMap_get (l : List Str) (d : Str) (i : ℕ) (hnd : l.Nodup)
    (hg : l.get? i = some d) : rankMap l d = some (i + 1) := by
  apply updateRanks_mem
  · exact ⟨(i, d), List.mk_mem_enum_iff_get?.mpr hg, rfl⟩
  · intro p hp hpd
    have hp2 : l.get? p.1 = some p.2 := List.mem_enum_iff_get?.mp hp
    rw [hpd] at hp2
    have hi : i < l.length := (List.get?_eq_some.mp hg).1
    have hj : p.1 < l.length := (List.get?_eq_some.mp hp2).1
    have hinj := List.nodup_iff_injective_get.mp hnd
    have e1 : l.get ⟨p.1, hj⟩ = d := by
      have h := List.get?_eq_get (l := l) hj
      rw [h] at hp2; exact Option.some_injective _ hp2
    have e2 : l.get ⟨i, hi⟩ = d := by
      have h := List.get?_eq_get (l := l) hi
      rw [h] at hg; exact Option.some_injective _ hg
    have heq : l.get ⟨p.1, hj⟩ = l.get ⟨i, hi⟩ := by rw [e1, e2]
    have := hinj heq
    exact congrArg Fin.val this

theorem rankMap_not_mem (l : List Str) (d : Str) (hd : d ∉ l) :
    rankMap l d = none := by
  apply updateRanks_not_mem
  intro p hp
  have : l.get? p.1 = some p.2 := List.mem_enum_iff_get?.mp hp
  intro hpd
  rw [hpd] at this
  exact hd (List.get?_mem this)

/-- C3: in hybrid_search with fusion constant k, a document at 1-indexed rank
i1+1 in the fetched BM25 list and rank i2+1 in the fetched semantic list gets
RRF score 1/(k+(i1+1)) + 1/(k+(i2+1)); a document in exactly one of the lists
at rank i+1 gets exactly 1/(k+(i+1)). -/
theorem c3_rrf_score (k : ℚ) (l1 l2 : List Str) (d : Str) (i1 i2 : ℕ)
    (hnd1 : l1.Nodup) (hnd2 : l2.Nodup) :
    (l1.get? i1 = some d → l2.get? i2 = some d →
       rrfScore k l1 l2 d = 1 / (k + ((i1 : ℚ) + 1)) + 1 / (k + ((i2 : ℚ) + 1)))
    ∧ (l1.get? i1 = some d → d ∉ l2 →
       rrfScore k l1 l2 d = 1 / (k + ((i1 : ℚ) + 1)))
    ∧ (d ∉ l1 → l2.get? i2 = some d →
       rrfScore k l1 l2 d = 1 / (k + ((i2 : ℚ) + 1))) := by
  refine ⟨?_, ?_, ?_⟩
  · intro h1 h2
    rw [rrfScore, rankMap_get l1 d i1 hnd1 h1, rankMap_get l2 d i2 hnd2 h2]
    simp [rrfContrib]
  · intro h1 h2
    rw [rrfScore, rankMap_get l1 d i1 hnd1 h1, rankMap_not_mem l2 d h2]
    simp [rrfContrib]
  · intro h1 h2
    rw [rrfScore, rankMap_not_mem l1 d h1, rankMap_get l2 d i2 hnd2 h2]
    simp [rrfContrib]

/-- C3 witness: with k = 60, document "b" at rank 2 of the BM25 list and rank
1 of the semantic list receives 1/62 + 1/61; document "a" only in the BM25
list at rank 1 receives 1/61. -/
theorem c3_rrf_score_witness :
    (([['a'], ['b']] : List Str).Nodup ∧ ([['b'], ['c']] : List Str).Nodup)
    ∧ rrfScore 60 [['a'], ['b']] [['b'], ['c']] ['b'] = 1 / 62 + 1 / 61
    ∧ rrfScore 60 [['a'], ['b']] [['b'], ['c']] ['a'] = 1 / 61 := by
  refine ⟨⟨by decide, by decide⟩, ?_, ?_⟩
  · have h := (c3_rrf_score 60 [['a'], ['b']] [['b'], ['c']] ['b'] 1 0
      (by decide) (by decide)).1 (by decide) (by decide)
    rw [h]; norm_num
  · have h := ((c3_rrf_score 60 [['a'], ['b']] [['b'], ['c']] ['a'] 0 0
      (by decide) (by decide)).2.1 (by decide) (by decide))
    rw [h]; norm_num

/-! ### BM25 scoring (src/app/services/search/bm25.py)

The collection has N documents; df is a term's document frequency.  The code
computes `idf = math.log((N - df + 0.5) / (df + 0.5) + 1)` when df > 0 and
sets idf = 0 when df = 0, then keeps exactly the terms with idf > 0
(`active_terms`).  The log argument is kept as an exact rational
(`bm25IdfArg`); the idf itself lives in ℝ via `Real.log`.  `termIsActive` is
the executable form of the filter `idf > 0`; `termIsActive_iff` proves it
equivalent to the real-valued comparison the code performs. -/

/-- Argument of the logarithm in the BM25 IDF formula, as an exact rational. -/
def bm25IdfArg (N df : ℕ) : ℚ :=
  ((N : ℚ) - (df : ℚ) + 1 / 2) / ((df : ℚ) + 1 / 2) + 1

/-- BM25 IDF as computed by the code: 0 when df = 0, else the smoothed log. -/
noncomputable def bm25_idf (N df : ℕ) : ℝ :=
  if df = 0 then 0 else Real.log ((bm25IdfArg N df : ℚ) : ℝ)

/-- Executable form of the active-term test `idf_scores.get(t, 0) > 0`. -/
def termIsActive (N df : ℕ) : Bool :=
  if df = 0 then false else decide ((1 : ℚ) < bm25IdfArg N df)

/-- The active-term filter of bm25_search: keep terms with positive IDF. -/
def active_terms (queryTerms : List Str) (dfs : Str → ℕ) (N : ℕ) : List Str :=
  queryTerms.filter (fun t => termIsActive N (dfs t))

/-- Term-frequency component of the BM25 score of one term in one document:
`(tf * (k1 + 1)) / (tf + k1 * (1 - b + b * doc_len / avgdl))`. -/
def tf_component (k1 b tf dl avgdl : ℚ) : ℚ :=
  (tf * (k1 + 1)) / (tf + k1 * (1 - b + b * dl / avgdl))

theorem bm25IdfArg_pos (N df : ℕ) : 0 < bm25IdfArg N df := by
  unfold bm25IdfArg
  have hden : (0 : ℚ) < (df : ℚ) + 1 / 2 := by positivity
  have hnum : -((df : ℚ) + 1 / 2) < (N : ℚ) - (df : ℚ) + 1 / 2 := by
    have hN : (0 : ℚ) ≤ (N : ℚ) := Nat.cast_nonneg N
    linarith
  have := (div_lt_div_iff_of_pos_right hden).mpr hnum
  rw [neg_div, div_self (ne_of_gt hden)] at this
  linarith

theorem termIsActive_iff (N df : ℕ) :
    termIsActive N df = true ↔ 0 < bm25_idf N df := by
  unfold termIsActive bm25_idf
  by_cases hdf : df = 0
  · simp [hdf]
  · simp only [hdf, if_false, decide_eq_true_eq]
    have hpos : (0 : ℝ) < ((bm25IdfArg N df : ℚ) : ℝ) := by
      exact_mod_cast bm25IdfArg_pos N df
    rw [Real.log_pos_iff hpos]
    constructor
    · intro h; exact_mod_cast h
    · intro h; exact_mod_cast h

/-- C1 counterexample: with a single-document collection (N = 1) and a term
appearing in that document (df = N = 1), the computed IDF is strictly
positive and the term is kept, contradicting the claim that IDF ≤ 0 and the
term is dropped. -/
theorem c1_counterexample :
    0 < bm25_idf 1 1 ∧ termIsActive 1 1 = true := by
  have harg : (1 : ℚ) < bm25IdfArg 1 1 := by
    unfold bm25IdfArg; norm_num
  constructor
  · unfold bm25_idf
    simp only [if_neg one_ne_zero]
    apply Real.log_pos
    exact_mod_cast harg
  · unfold termIsActive
    simp only [if_neg one_ne_zero, decide_eq_true_eq]
    exact harg

/-- C1 amended: for every collection with N ≥ 1 documents and a stemmed term
with df = N, the smoothed IDF `log((N - df + 0.5)/(df + 0.5) + 1)` is strictly
positive, the term passes the active-term filter (it is not dropped), and it
contributes a strictly positive amount to the score of every document
containing it (tf ≥ 1). -/
theorem c1_df_eq_N_idf_positive (N df : ℕ) (tf dl avgdl k1 b : ℚ)
    (hN : 1 ≤ N) (hdf : df = N) (htf : 1 ≤ tf) (hdl : 0 ≤ dl)
    (havg : 0 < avgdl) (hk1 : 0 < k1) (hb0 : 0 ≤ b) (hb1 : b ≤ 1) :
    0 < bm25_idf N df ∧ termIsActive N df = true ∧
      0 < bm25_idf N df * ((tf_component k1 b tf dl avgdl : ℚ) : ℝ) := by
  subst hdf
  have hdf0 : df ≠ 0 := by omega
  have harg : (1 : ℚ) < bm25IdfArg df df := by
    unfold bm25IdfArg
    have hden : (0 : ℚ) < (df : ℚ) + 1 / 2 := by positivity
    have : (0 : ℚ) < ((df : ℚ) - (df : ℚ) + 1 / 2) / ((df : ℚ) + 1 / 2) := by
      apply div_pos _ hden; norm_num
    linarith
  have hidf : 0 < bm25_idf df df := by
    unfold bm25_idf
    simp only [hdf0, if_false]
    apply Real.log_pos
    exact_mod_cast harg
  have hactive : termIsActive df df = true := by
    unfold termIsActive
    simp only [hdf0, if_false, decide_eq_true_eq]
    exact harg
  have htfc : 0 < tf_component k1 b tf dl avgdl := by
    unfold tf_component
    have hnum : 0 < tf * (k1 + 1) := by positivity
    have hrest : 0 ≤ k1 * (1 - b + b * dl / avgdl) := by
      apply mul_nonneg (le_of_lt hk1)
      have h1 : 0 ≤ 1 - b := by linarith
      have h2 : 0 ≤ b * dl / avgdl := by positivity
      linarith
    have hden : 0 < tf + k1 * (1 - b + b * dl / avgdl) := by linarith
    exact div_pos hnum hden
  refine ⟨hidf, hactive, ?_⟩
  apply mul_pos hidf
  exact_mod_cast htfc

/-- C1 witness: the amended statement instantiated at N = df = 1, tf = 1,
doc_len = 0, avgdl = 1 and the default parameters k1 = 1.2, b = 0.75. -/
theorem c1_df_eq_N_idf_positive_witness :
    (1 ≤ 1 ∧ (1 : ℚ) ≤ 1 ∧ (0 : ℚ) ≤ 0 ∧ (0 : ℚ) < 1 ∧ (0 : ℚ) < 1.2
      ∧ (0 : ℚ) ≤ 0.75 ∧ (0.75 : ℚ) ≤ 1)
    ∧ (0 < bm25_idf 1 1 ∧ termIsActive 1 1 = true ∧
        0 < bm25_idf 1 1 * ((tf_component 1.2 0.75 1 0 1 : ℚ) : ℝ)) := by
  constructor
  · refine ⟨le_refl 1, le_refl 1, le_refl 0, ?_, ?_, ?_, ?_⟩ <;> norm_num
  · exact c1_df_eq_N_idf_positive 1 1 1 0 1 1.2 0.75 (le_refl 1) rfl (le_refl 1)
      (le_refl 0) (by norm_num) (by norm_num) (by norm_num) (by norm_num)

/-! ### Query processor (src/app/services/search/query_processor.py)

`process_query` strips and whitespace-collapses the raw query, processes it
through the TextProcessor pipeline with stemming, and derives
`cache_key = md5(" ".join(sorted(set(tokens))))`.  The md5 digest is external
(hashlib) and is taken as a parameter `h : Str → Str`; the pre-hash string is
modelled exactly. -/

/-- Python `str.strip()`: remove leading and trailing whitespace. -/
def stripStr (s : Str) : Str :=
  ((s.dropWhile Char.isWhitespace).reverse.dropWhile Char.isWhitespace).reverse

/-- Python `re.sub(r"\s+", " ", s)`: replace each maximal whitespace run by a
single space.  The flag records whether the previous character was whitespace. -/
def collapseWsAux : Bool → Str → Str
  | _, [] => []
  | prevWs, c :: rest =>
    if c.isWhitespace then
      if prevWs then collapseWsAux true rest
      else ' ' :: collapseWsAux true rest
    else c :: collapseWsAux false rest

/-- Python `re.sub(r"\s+", " ", s)`. -/
def collapseWs (s : Str) : Str := collapseWsAux false s

/-- The cleaned query: `re.sub(r"\s+", " ", query.strip())`. -/
def cleanQuery (s : Str) : Str := collapseWs (stripStr s)

/-- Python string `<=` as a Prop, for sorting. -/
def strLeP (a b : Str) : Prop := lexLe a b = true

instance : DecidableRel strLeP := fun a b => by
  unfold strLeP; infer_instance

instance : IsTotal Str strLeP := by
  refine ⟨fun a b => ?_⟩
  have h := lexLe_total a b
  rcases Bool.or_eq_true_iff.mp h with h1 | h1
  · exact Or.inl h1
  · exact Or.inr h1

instance : IsTrans Str strLeP := ⟨fun a b c => lexLe_trans a b c⟩

instance : IsAntisymm Str strLeP := ⟨fun a b => lexLe_antisymm a b⟩

/-- Stemmed query tokens of process_query: the cleaned query run through the
full TextProcessor pipeline with stemming. -/
def query_tokens (stops : Str → Bool) (stemmer : Str → Str) (q : Str) : List Str :=
  process stops stemmer (cleanQuery q) true

/-- Python `" ".join(sorted(set(tokens)))`: the string that is hashed. -/
def cache_key_string (tokens : List Str) : Str :=
  joinWords (List.insertionSort strLeP tokens.dedup)

/-- The cache_key field of process_query, with the md5 digest abstracted as h. -/
def cache_key (h : Str → Str) (stops : Str → Bool) (stemmer : Str → Str) (q : Str) :
    Str :=
  h (cache_key_string (query_tokens stops stemmer q))

theorem cache_key_string_eq_of_toFinset_eq (t1 t2 : List Str)
    (hset : t1.toFinset = t2.toFinset) : cache_key_string t1 = cache_key_string t2 := by
  unfold cache_key_string
  have hmem : ∀ a : Str, a ∈ t1.dedup ↔ a ∈ t2.dedup := by
    intro a
    rw [List.mem_dedup, List.mem_dedup, ← List.mem_toFinset, hset, List.mem_toFinset]
  have hperm : List.Perm t1.dedup t2.dedup :=
    (List.perm_ext_iff_of_nodup t1.nodup_dedup t2.nodup_dedup).mpr hmem
  have hperm2 : List.Perm (List.insertionSort strLeP t1.dedup)
      (List.insertionSort strLeP t2.dedup) :=
    ((List.perm_insertionSort strLeP t1.dedup).trans hperm).trans
      (List.perm_insertionSort strLeP t2.dedup).symm
  have heq : List.insertionSort strLeP t1.dedup = List.insertionSort strLeP t2.dedup :=
    List.eq_of_perm_of_sorted hperm2 (List.sorted_insertionSort strLeP t1.dedup)
      (List.sorted_insertionSort strLeP t2.dedup)
  rw [heq]

theorem takeWhile_all_append (p : Char → Bool) (w r : Str) (hw : ∀ c ∈ w, p c) :
    (w ++ r).takeWhile p = w ++ r.takeWhile p := by
  induction w with
  | nil => rfl
  | cons c cs ih =>
    have hc : p c := hw c (List.mem_cons_self c cs)
    simp only [List.cons_append, List.takeWhile_cons, hc, if_true]
    rw [ih (fun x hx => hw x (List.mem_cons_of_mem c hx))]

theorem dropWhile_all_append (p : Char → Bool) (w r : Str) (hw : ∀ c ∈ w, p c) :
    (w ++ r).dropWhile p = r.dropWhile p := by
  induction w with
  | nil => rfl
  | cons c cs ih =>
    have hc : p c := hw c (List.mem_cons_self c cs)
    simp only [List.cons_append, List.dropWhile_cons, hc, if_true]
    exact ih (fun x hx => hw x (List.mem_cons_of_mem c hx))

theorem joinWords_cons (w : Str) (ws : List Str) :
    joinWords (w :: ws) = w ++ (if ws = [] then [] else ' ' :: joinWords ws) := by
  cases ws with
  | nil => simp [joinWords]
  | cons w2 ws2 => simp [joinWords]

theorem joinWords_inj : ∀ l1 l2 : List Str,
    (∀ w ∈ l1, w ≠ [] ∧ ' ' ∉ w) → (∀ w ∈ l2, w ≠ [] ∧ ' ' ∉ w) →
    joinWords l1 = joinWords l2 → l1 = l2 := by
  intro l1
  induction l1 with
  | nil =>
    intro l2 _ h2 he
    cases l2 with
    | nil => rfl
    | cons w ws =>
      rw [joinWords_cons] at he
      rcases List.append_eq_nil.mp he.symm with ⟨hw, _⟩
      exact absurd hw (h2 w (List.mem_cons_self w ws)).1
  | cons w1 ws1 ih =>
    intro l2 h1 h2 he
    cases l2 with
    | nil =>
      rw [joinWords_cons] at he
      rcases List.append_eq_nil.mp he with ⟨hw, _⟩
      exact absurd hw (h1 w1 (List.mem_cons_self w1 ws1)).1
    | cons w2 ws2 =>
      rw [joinWords_cons, joinWords_cons] at he
      have hsp1 : ∀ c ∈ w1, (fun c => decide (c ≠ ' ')) c := by
        intro c hc
        simp only [decide_eq_true_eq]
        intro hcsp
        exact (h1 w1 (List.mem_cons_self w1 ws1)).2 (hcsp ▸ hc)
      have hsp2 : ∀ c ∈ w2, (fun c => decide (c ≠ ' ')) c := by
        intro c hc
        simp only [decide_eq_true_eq]
        intro hcsp
        exact (h2 w2 (List.mem_cons_self w2 ws2)).2 (hcsp ▸ hc)
      have htail : ∀ ws : List Str,
          ((if ws = [] then ([] : Str) else ' ' :: joinWords ws).takeWhile
            (fun c => decide (c ≠ ' '))) = [] := by
        intro ws
        cases ws with
        | nil => rfl
        | cons a b => simp [List.takeWhile_cons]
      have hw12 : w1 = w2 := by
        have := congrArg (List.takeWhile (fun c => decide (c ≠ ' '))) he
        rw [takeWhile_all_append _ _ _ hsp1, takeWhile_all_append _ _ _ hsp2,
          htail ws1, htail ws2, List.append_nil, List.append_nil] at this
        exact this
      subst hw12
      have htl : (if ws1 = [] then ([] : Str) else ' ' :: joinWords ws1)
          = (if ws2 = [] then ([] : Str) else ' ' :: joinWords ws2) :=
        List.append_cancel_left he
      cases hws1 : ws1 with
      | nil =>
        cases hws2 : ws2 with
        | nil => rfl
        | cons a b =>
          rw [hws1, hws2] at htl
          simp at htl
      | cons a b =>
        cases hws2 : ws2 with
        | nil =>
          rw [hws1, hws2] at htl
          simp at htl
        | cons a2 b2 =>
          rw [hws1, hws2] at htl
          simp only [List.cons_ne_nil, if_false, List.cons.injEq, true_and] at htl
          have := ih ws2 (fun w hw => h1 w (List.mem_cons_of_mem w1 (hws1 ▸ hw)))
            (fun w hw => h2 w (List.mem_cons_of_mem w1 (hws2 ▸ hw)))
            (by rw [hws1, hws2]; exact htl)
          rw [hws1, hws2] at this
          rw [this]

/-- C4: the cache key depends only on the set of distinct stemmed tokens
(so it is invariant under whitespace changes, token order and repetition),
and two queries with disjoint non-empty stemmed token sets get different
cache keys, provided the hash is injective on the pre-hash strings and the
stemmed tokens are non-empty and space-free. -/
theorem c4_cache_key (h : Str → Str) (stops : Str → Bool) (stemmer : Str → Str)
    (q1 q2 : Str) :
    ((query_tokens stops stemmer q1).toFinset = (query_tokens stops stemmer q2).toFinset →
      cache_key h stops stemmer q1 = cache_key h stops stemmer q2)
    ∧ (Function.Injective h →
       (∀ t ∈ query_tokens stops stemmer q1, t ≠ [] ∧ ' ' ∉ t) →
       (∀ t ∈ query_tokens stops stemmer q2, t ≠ [] ∧ ' ' ∉ t) →
       query_tokens stops stemmer q1 ≠ [] →
       query_tokens stops stemmer q2 ≠ [] →
       (query_tokens stops stemmer q1).toFinset ∩ (query_tokens stops stemmer q2).toFinset
         = ∅ →
       cache_key h stops stemmer q1 ≠ cache_key h stops stemmer q2) := by
  constructor
  · intro hset
    unfold cache_key
    rw [cache_key_string_eq_of_toFinset_eq _ _ hset]
  · intro hinj hw1 hw2 hne1 hne2 hdisj hkey
    set t1 := query_tokens stops stemmer q1 with ht1
    set t2 := query_tokens stops stemmer q2 with ht2
    have hstr : cache_key_string t1 = cache_key_string t2 := hinj hkey
    unfold cache_key_string at hstr
    have hs1mem : ∀ w ∈ List.insertionSort strLeP t1.dedup, w ∈ t1 := by
      intro w hw
      exact List.mem_dedup.mp ((List.mem_insertionSort strLeP).mp hw)
    have hs2mem : ∀ w ∈ List.insertionSort strLeP t2.dedup, w ∈ t2 := by
      intro w hw
      exact List.mem_dedup.mp ((List.mem_insertionSort strLeP).mp hw)
    have heq : List.insertionSort strLeP t1.dedup = List.insertionSort strLeP t2.dedup :=
      joinWords_inj _ _ (fun w hw => hw1 w (hs1mem w hw))
        (fun w hw => hw2 w (hs2mem w hw)) hstr
    have hlen : t1.dedup.length ≠ 0 := by
      intro h0
      exact hne1 ((List.dedup_eq_nil t1).mp (List.length_eq_zero.mp h0))
    have hs1ne : List.insertionSort strLeP t1.dedup ≠ [] := by
      intro h0
      have := List.length_insertionSort strLeP t1.dedup
      rw [h0] at this
      exact hlen this.symm
    obtain ⟨x, xs, hx⟩ := List.exists_cons_of_ne_nil hs1ne
    have hx1 : x ∈ t1 := hs1mem x (hx ▸ List.mem_cons_self x xs)
    have hx2 : x ∈ t2 := hs2mem x ((heq ▸ hx) ▸ List.mem_cons_self x xs)
    have : x ∈ (t1.toFinset ∩ t2.toFinset : Finset Str) :=
      Finset.mem_inter.mpr ⟨List.mem_toFinset.mpr hx1, List.mem_toFinset.mpr hx2⟩
    rw [hdisj] at this
    exact absurd this (Finset.not_mem_empty x)

/-- C4 witness: with the identity hash and stemmer and no stopwords,
"foo bar" and "bar bar  foo" share a cache key, while "foo" and "bar" have
disjoint token sets and different cache keys. -/
theorem c4_cache_key_witness :
    ((query_tokens (fun _ => false) id "foo bar".data).toFinset
        = (query_tokens (fun _ => false) id "bar bar  foo".data).toFinset
      ∧ cache_key id (fun _ => false) id "foo bar".data
        = cache_key id (fun _ => false) id "bar bar  foo".data)
    ∧ ((∀ t ∈ query_tokens (fun _ => false) id "foo".data, t ≠ [] ∧ ' ' ∉ t)
      ∧ (∀ t ∈ query_tokens (fun _ => false) id "bar".data, t ≠ [] ∧ ' ' ∉ t)
      ∧ query_tokens (fun _ => false) id "foo".data ≠ []
      ∧ query_tokens (fun _ => false) id "bar".data ≠ []
      ∧ (query_tokens (fun _ => false) id "foo".data).toFinset
          ∩ (query_tokens (fun _ => false) id "bar".data).toFinset = ∅
      ∧ cache_key id (fun _ => false) id "foo".data
          ≠ cache_key id (fun _ => false) id "bar".data) := by
  constructor
  · refine ⟨by decide, ?_⟩
    exact (c4_cache_key id (fun _ => false) id "foo bar".data "bar bar  foo".data).1
      (by decide)
  · refine ⟨by decide, by decide, by decide, by decide, by decide, ?_⟩
    exact (c4_cache_key id (fun _ => false) id "foo".data "bar".data).2
      (fun a b hab => hab) (by decide) (by decide) (by decide) (by decide) (by decide)

/-! ### Text chunking (src/app/services/indexer/vector_indexer.py)

`chunk_text` splits a text into word windows:
`while start < len(words): chunks.append(" ".join(words[start:start+size]));
start += chunk_size - chunk_overlap`.  The loop is embedded with explicit
fuel (one unit per iteration); `none` means the fuel was exhausted while the
loop guard still held, which is how a diverging loop shows up.  The start
offset and the step are integers, as in Python; a negative step (possible in
Python when chunk_overlap > chunk_size) makes the loop diverge, and the slice
for a negative start (never reached in a terminating run) is modelled with
`Int.toNat`. -/

/-- settings.chunk_size default. -/
def chunk_size_default : ℕ := 512

/-- settings.chunk_overlap default. -/
def chunk_overlap_default : ℕ := 50

/-- The chunking while-loop over the word list, producing the word windows
`words[start : start + size]`, one per iteration. -/
def chunkLoop (ws : List Str) (size : ℕ) (step : ℤ) :
    ℕ → ℤ → Option (List (List Str))
  | 0, start => if start < (ws.length : ℤ) then none else some []
  | fuel + 1, start =>
    if start < (ws.length : ℤ) then
      (chunkLoop ws size step fuel (start + step)).map
        (fun rest => (ws.drop start.toNat).take size :: rest)
    else some []

/-- chunk_text: empty text gives no chunks, a text of at most `size` words is
one chunk equal to the whole text, otherwise the loop windows are joined with
single spaces.  Fuel `words.length` is enough whenever the step is positive
(`chunkLoop_isSome`). -/
def chunk_text (text : Str) (size overlap : ℕ) : Option (List Str) :=
  if text = [] then some []
  else
    let ws := splitWs text
    if ws.length ≤ size then some [text]
    else (chunkLoop ws size ((size : ℤ) - (overlap : ℤ)) ws.length 0).map
      (fun slices => slices.map joinWords)

theorem chunkLoop_isSome (ws : List Str) (size : ℕ) (step : ℤ) (hstep : 0 < step) :
    ∀ (fuel : ℕ) (start : ℤ), (ws.length : ℤ) ≤ start + fuel * step →
      (chunkLoop ws size step fuel start).isSome := by
  intro fuel
  induction fuel with
  | zero =>
    intro start h
    simp only [Nat.cast_zero, zero_mul, add_zero] at h
    simp [chunkLoop, not_lt.mpr h]
  | succ f ih =>
    intro start h
    by_cases hc : start < (ws.length : ℤ)
    · have hrec : (ws.length : ℤ) ≤ (start + step) + f * step := by
        push_cast at h ⊢
        linarith
      have := ih (start + step) hrec
      simp only [chunkLoop, hc, if_true]
      rcases Option.isSome_iff_exists.mp this with ⟨v, hv⟩
      rw [hv]
      rfl
    · simp [chunkLoop, hc]

theorem chunkLoop_none_of_nonpos_step (ws : List Str) (size : ℕ) (step : ℤ)
    (hstep : step ≤ 0) :
    ∀ (fuel : ℕ) (start : ℤ), start < (ws.length : ℤ) →
      chunkLoop ws size step fuel start = none := by
  intro fuel
  induction fuel with
  | zero => intro start h; simp [chunkLoop, h]
  | succ f ih =>
    intro start h
    have hrec : start + step < (ws.length : ℤ) := by linarith
    simp [chunkLoop, h, ih (start + step) hrec]

theorem chunkLoop_get (ws : List Str) (size : ℕ) (step : ℤ) (hstep : 0 < step) :
    ∀ (fuel : ℕ) (start : ℤ) (slices : List (List Str)),
      0 ≤ start →
      chunkLoop ws size step fuel start = some slices →
      ∀ i : ℕ, slices.get? i =
        if start + i * step < (ws.length : ℤ) then
          some ((ws.drop (start + i * step).toNat).take size)
        else none := by
  intro fuel
  induction fuel with
  | zero =>
    intro start slices h0 hs i
    by_cases hc : start < (ws.length : ℤ)
    · simp [chunkLoop, hc] at hs
    · simp only [chunkLoop, hc, if_false, Option.some.injEq] at hs
      have hge : (ws.length : ℤ) ≤ start + i * step := by
        have : (0 : ℤ) ≤ i * step := by positivity
        have := not_lt.mp hc
        linarith
      rw [← hs]
      simp [not_lt.mpr hge]
  | succ f ih =>
    intro start slices h0 hs i
    by_cases hc : start < (ws.length : ℤ)
    · simp only [chunkLoop, hc, if_true] at hs
      rcases Option.map_eq_some'.mp hs with ⟨rest, hrest, hcons⟩
      have hrec := ih (start + step) rest (by linarith) hrest
      cases i with
      | zero =>
        rw [← hcons]
        simp [hc]
      | succ j =>
        rw [← hcons]
        have harith : (start + step) + j * step = start + (j + 1 : ℕ) * step := by
          push_cast
          ring
        have := hrec j
        rw [harith] at this
        simpa using this
    · simp only [chunkLoop, hc, if_false, Option.some.injEq] at hs
      have hge : (ws.length : ℤ) ≤ start + i * step := by
        have : (0 : ℤ) ≤ i * step := by positivity
        have := not_lt.mp hc
        linarith
      rw [← hs]
      simp [not_lt.mpr hge]

/-- Characters of the pieces produced by splitOnP never satisfy the
predicate. -/
theorem splitOnP_sep_free (p : Char → Bool) :
    ∀ (s : Str) (w : Str), w ∈ s.splitOnP p → ∀ c ∈ w, ¬ p c = true := by
  intro s
  induction s with
  | nil =>
    intro w hw c hc
    rw [List.splitOnP_nil] at hw
    rcases List.mem_singleton.mp hw with rfl
    simp at hc
  | cons x xs ih =>
    intro w hw c hc
    rw [List.splitOnP_cons] at hw
    by_cases hx : p x
    · simp only [hx, if_true] at hw
      rcases List.mem_cons.mp hw with rfl | hmem
      · simp at hc
      · exact ih w hmem c hc
    · simp only [hx, if_false] at hw
      have hne := List.splitOnP_ne_nil p xs
      rcases hsplit : xs.splitOnP p with _ | ⟨hd, tl⟩
      · exact absurd hsplit hne
      · rw [hsplit] at hw
        simp only [List.modifyHead] at hw
        rcases List.mem_cons.mp hw with rfl | hmem
        · rcases List.mem_cons.mp hc with rfl | hcc
          · simpa using hx
          · exact ih hd (hsplit ▸ List.mem_cons_self hd tl) c hcc
        · exact ih w (hsplit ▸ List.mem_cons_of_mem hd hmem) c hc

/-- Words produced by splitWs are non-empty and whitespace-free. -/
theorem splitWs_words (s : Str) :
    ∀ w ∈ splitWs s, w ≠ [] ∧ ∀ c ∈ w, ¬ c.isWhitespace = true := by
  intro w hw
  unfold splitWs at hw
  rcases List.mem_filter.mp hw with ⟨hmem, hne⟩
  refine ⟨by simpa using hne, ?_⟩
  exact splitOnP_sep_free _ s w hmem

/-- Round trip: joining non-empty whitespace-free words with single spaces
and splitting on whitespace recovers the word list. -/
theorem splitWs_joinWords :
    ∀ l : List Str, (∀ w ∈ l, w ≠ [] ∧ ∀ c ∈ w, ¬ c.isWhitespace = true) →
      splitWs (joinWords l) = l := by
  intro l
  induction l with
  | nil => intro _; rfl
  | cons w ws ih =>
    intro h
    have hw := h w (List.mem_cons_self w ws)
    cases ws with
    | nil =>
      show splitWs w = [w]
      unfold splitWs
      rw [List.splitOnP_eq_single _ _ (fun c hc => by simpa using hw.2 c hc)]
      have hwne : (!w.isEmpty) = true := by
        cases hcase : w with
        | nil => exact absurd hcase hw.1
        | cons a b => rfl
      simp [List.filter_cons, hwne]
    | cons w2 ws2 =>
      have hjoin : joinWords (w :: w2 :: ws2) = w ++ ' ' :: joinWords (w2 :: ws2) := rfl
      rw [hjoin]
      unfold splitWs
      rw [List.splitOnP_first _ w (fun c hc => by simpa using hw.2 c hc) ' '
        (by decide) (joinWords (w2 :: ws2))]
      have hrest := ih (fun x hx => h x (List.mem_cons_of_mem w hx))
      unfold splitWs at hrest
      rw [List.filter_cons]
      have hwne : (!w.isEmpty) = true := by
        cases hcase : w with
        | nil => exact absurd hcase hw.1
        | cons a b => rfl
      simp only [hwne, if_true]
      rw [hrest]

/-- Packaged description of a terminating chunk_text run on a long text:
the loop succeeds, and slice i is the word window starting at offset
`i * (size - overlap)` exactly when that offset is in range. -/
theorem chunk_text_slices (text : Str) (size overlap : ℕ) (hov : overlap < size)
    (hlong : size < (splitWs text).length) :
    ∃ slices,
      chunkLoop (splitWs text) size ((size : ℤ) - (overlap : ℤ))
          (splitWs text).length 0 = some slices
      ∧ chunk_text text size overlap = some (slices.map joinWords)
      ∧ (∀ i : ℕ, i * (size - overlap) < (splitWs text).length →
          slices.get? i = some (((splitWs text).drop (i * (size - overlap))).take size))
      ∧ (∀ i : ℕ, (splitWs text).length ≤ i * (size - overlap) →
          slices.get? i = none) := by
  have hstep : (0 : ℤ) < (size : ℤ) - (overlap : ℤ) := by
    have : (overlap : ℤ) < (size : ℤ) := by exact_mod_cast hov
    linarith
  have hcast : ((size - overlap : ℕ) : ℤ) = (size : ℤ) - (overlap : ℤ) :=
    Nat.cast_sub (le_of_lt hov)
  have htext : text ≠ [] := by
    intro h0
    rw [h0] at hlong
    have : splitWs ([] : Str) = [] := by decide
    rw [this] at hlong
    simp at hlong
  have hfuel : ((splitWs text).length : ℤ)
      ≤ 0 + ((splitWs text).length : ℕ) * ((size : ℤ) - (overlap : ℤ)) := by
    have h1 : (1 : ℤ) ≤ (size : ℤ) - (overlap : ℤ) := hstep
    have h2 : ((splitWs text).length : ℤ) * 1
        ≤ ((splitWs text).length : ℤ) * ((size : ℤ) - (overlap : ℤ)) :=
      mul_le_mul_of_nonneg_left h1 (Int.natCast_nonneg _)
    linarith
  have hsome := chunkLoop_isSome (splitWs text) size ((size : ℤ) - (overlap : ℤ))
    hstep (splitWs text).length 0 hfuel
  rcases Option.isSome_iff_exists.mp hsome with ⟨slices, hslices⟩
  have hget := chunkLoop_get (splitWs text) size ((size : ℤ) - (overlap : ℤ))
    hstep (splitWs text).length 0 slices (le_refl 0) hslices
  have harith : ∀ i : ℕ, (0 : ℤ) + (i : ℤ) * ((size : ℤ) - (overlap : ℤ))
      = ((i * (size - overlap) : ℕ) : ℤ) := by
    intro i
    rw [Nat.cast_mul, hcast]
    ring
  refine ⟨slices, hslices, ?_, ?_, ?_⟩
  · unfold chunk_text
    rw [if_neg htext]
    simp only
    rw [if_neg (not_le.mpr hlong), hslices]
    rfl
  · intro i hi
    have h := hget i
    rw [harith i] at h
    have hc : (((i * (size - overlap) : ℕ) : ℤ)) < ((splitWs text).length : ℤ) := by
      exact_mod_cast hi
    rw [if_pos hc] at h
    rw [h, Int.toNat_natCast]
  · intro i hi
    have h := hget i
    rw [harith i] at h
    have hc : ¬ (((i * (size - overlap) : ℕ) : ℤ)) < ((splitWs text).length : ℤ) := by
      rw [not_lt]
      exact_mod_cast hi
    rw [if_neg hc] at h
    exact h

/-- Splitting a joined word window of the text's word list gives back the
window. -/
theorem chunk_window_words (text : Str) (m size : ℕ) :
    splitWs (joinWords (((splitWs text).drop m).take size))
      = ((splitWs text).drop m).take size :=
  splitWs_joinWords _ (fun w hw =>
    splitWs_words text w (List.mem_of_mem_drop (List.mem_of_mem_take hw)))

/-- C5: with overlap < size, a text of at most `size` words yields the single
chunk equal to the whole text; a longer text yields chunks that are exactly
the space-joined word windows at offsets 0, (size-overlap), 2(size-overlap),
…, each chunk has at most `size` words, every word of the text occurs in some
chunk, and consecutive chunks share their boundary window: the last
(size-overlap)-offset words of chunk i are the first `overlap` words of chunk
i+1, which number exactly `overlap` when chunk i+1 is full. -/
theorem c5_chunk_text (text : Str) (size overlap : ℕ) (hov : overlap < size) :
    ((splitWs text).length ≤ size → text ≠ [] →
      chunk_text text size overlap = some [text])
    ∧ (size < (splitWs text).length →
      ∃ chunks, chunk_text text size overlap = some chunks
        ∧ (∀ i : ℕ, i * (size - overlap) < (splitWs text).length →
            chunks.get? i = some (joinWords
              (((splitWs text).drop (i * (size - overlap))).take size)))
        ∧ (∀ i : ℕ, (splitWs text).length ≤ i * (size - overlap) →
            chunks.get? i = none)
        ∧ (∀ c ∈ chunks, (splitWs c).length ≤ size)
        ∧ (∀ w ∈ splitWs text, ∃ c ∈ chunks, w ∈ splitWs c)
        ∧ (∀ (i : ℕ) (c1 c2 : Str), chunks.get? i = some c1 →
            chunks.get? (i + 1) = some c2 →
            (splitWs c1).drop (size - overlap) = (splitWs c2).take overlap
            ∧ ((splitWs c2).length = size →
                ((splitWs c2).take overlap).length = overlap))) := by
  constructor
  · intro hshort htext
    unfold chunk_text
    rw [if_neg htext]
    simp only
    rw [if_pos hshort]
  · intro hlong
    rcases chunk_text_slices text size overlap hov hlong with
      ⟨slices, hslices, hchunk, hslice, hnone⟩
    have hn1 : 1 ≤ size - overlap := by omega
    have hslice_mem : ∀ c ∈ slices.map joinWords, ∃ m : ℕ,
        c = joinWords (((splitWs text).drop m).take size) := by
      intro c hc
      rcases List.mem_map.mp hc with ⟨sl, hsl, hceq⟩
      rcases List.mem_iff_get?.mp hsl with ⟨j, hj⟩
      by_cases hjc : j * (size - overlap) < (splitWs text).length
      · have := hslice j hjc
        rw [hj] at this
        exact ⟨j * (size - overlap), by rw [← hceq, Option.some_injective _ this]⟩
      · rw [hnone j (not_lt.mp hjc)] at hj
        exact absurd hj (Option.noConfusion)
    refine ⟨slices.map joinWords, hchunk, ?_, ?_, ?_, ?_, ?_⟩
    · intro i hi
      rw [List.get?_map, hslice i hi]
      rfl
    · intro i hi
      rw [List.get?_map, hnone i hi]
      rfl
    · intro c hc
      rcases hslice_mem c hc with ⟨m, hm⟩
      rw [hm, chunk_window_words, List.length_take]
      exact min_le_left _ _
    · intro w hw
      rcases List.mem_iff_get?.mp hw with ⟨j, hj⟩
      have hjlen : j < (splitWs text).length := (List.get?_eq_some.mp hj).1
      have hi1 : (j / (size - overlap)) * (size - overlap) ≤ j :=
        Nat.div_mul_le_self j (size - overlap)
      have hdm := Nat.div_add_mod j (size - overlap)
      have hmlt : j % (size - overlap) < size - overlap :=
        Nat.mod_lt j (by omega)
      have hi2 : j < (j / (size - overlap)) * (size - overlap) + (size - overlap) := by
        calc j = (size - overlap) * (j / (size - overlap)) + j % (size - overlap) :=
              hdm.symm
          _ < (size - overlap) * (j / (size - overlap)) + (size - overlap) :=
              Nat.add_lt_add_left hmlt _
          _ = (j / (size - overlap)) * (size - overlap) + (size - overlap) := by
              rw [Nat.mul_comm]
      have hcov : (j / (size - overlap)) * (size - overlap) < (splitWs text).length :=
        lt_of_le_of_lt hi1 hjlen
      refine ⟨joinWords (((splitWs text).drop
          ((j / (size - overlap)) * (size - overlap))).take size), ?_, ?_⟩
      · apply List.get?_mem
        show (slices.map joinWords).get? (j / (size - overlap)) = _
        rw [List.get?_map, hslice _ hcov]
        rfl
      · rw [chunk_window_words]
        apply List.get?_mem
        show (((splitWs text).drop
            ((j / (size - overlap)) * (size - overlap))).take size).get?
            (j - (j / (size - overlap)) * (size - overlap)) = some w
        have hlt : j - (j / (size - overlap)) * (size - overlap) < size := by omega
        rw [List.get?_take hlt, List.get?_eq_getElem?, List.getElem?_drop,
          ← List.get?_eq_getElem?]
        have : (j / (size - overlap)) * (size - overlap)
            + (j - (j / (size - overlap)) * (size - overlap)) = j := by omega
        rw [this]
        exact hj
    · intro i c1 c2 h1 h2
      have hc2lt : (i + 1) * (size - overlap) < (splitWs text).length := by
        by_contra hcon
        rw [List.get?_map, hnone (i + 1) (not_lt.mp hcon)] at h2
        exact Option.noConfusion h2
      have hc1lt : i * (size - overlap) < (splitWs text).length := by
        have : i * (size - overlap) ≤ (i + 1) * (size - overlap) :=
          Nat.mul_le_mul_right _ (Nat.le_succ i)
        omega
      have hc1 : c1 = joinWords (((splitWs text).drop
          (i * (size - overlap))).take size) := by
        rw [List.get?_map, hslice i hc1lt] at h1
        exact (Option.some_injective _ h1).symm
      have hc2 : c2 = joinWords (((splitWs text).drop
          ((i + 1) * (size - overlap))).take size) := by
        rw [List.get?_map, hslice (i + 1) hc2lt] at h2
        exact (Option.some_injective _ h2).symm
      have hs1 : splitWs c1 = ((splitWs text).drop (i * (size - overlap))).take size := by
        rw [hc1, chunk_window_words]
      have hs2 : splitWs c2
          = ((splitWs text).drop ((i + 1) * (size - overlap))).take size := by
        rw [hc2, chunk_window_words]
      constructor
      · rw [hs1, hs2]
        rw [List.drop_take]
        rw [List.drop_drop]
        have e1 : size - (size - overlap) = overlap := by omega
        have e2 : i * (size - overlap) + (size - overlap) = (i + 1) * (size - overlap) := by
          rw [Nat.succ_mul]
        rw [e1, e2, List.take_take]
        have e3 : min overlap size = overlap := min_eq_left (le_of_lt hov)
        rw [e3]
      · intro hfull
        rw [List.length_take, hfull]
        exact min_eq_left (le_of_lt hov)

/-- C5 witness: text "aa bb cc" (three words) with size 2, overlap 1: the
long-text branch instantiated, plus the short-text branch on "aa bb" with
size 2. -/
theorem c5_chunk_text_witness :
    (1 < 2
      ∧ ((splitWs "aa bb".data).length ≤ 2 → "aa bb".data ≠ [] →
          chunk_text "aa bb".data 2 1 = some ["aa bb".data])
      ∧ (2 < (splitWs "aa bb cc".data).length →
        ∃ chunks, chunk_text "aa bb cc".data 2 1 = some chunks
          ∧ (∀ i : ℕ, i * (2 - 1) < (splitWs "aa bb cc".data).length →
              chunks.get? i = some (joinWords
                (((splitWs "aa bb cc".data).drop (i * (2 - 1))).take 2)))
          ∧ (∀ i : ℕ, (splitWs "aa bb cc".data).length ≤ i * (2 - 1) →
              chunks.get? i = none)
          ∧ (∀ c ∈ chunks, (splitWs c).length ≤ 2)
          ∧ (∀ w ∈ splitWs "aa bb cc".data, ∃ c ∈ chunks, w ∈ splitWs c)
          ∧ (∀ (i : ℕ) (c1 c2 : Str), chunks.get? i = some c1 →
              chunks.get? (i + 1) = some c2 →
              (splitWs c1).drop (2 - 1) = (splitWs c2).take 1
              ∧ ((splitWs c2).length = 2 →
                  ((splitWs c2).take 1).length = 1)))) := by
  refine ⟨by decide, (c5_chunk_text "aa bb".data 2 1 (by decide)).1,
    (c5_chunk_text "aa bb cc".data 2 1 (by decide)).2⟩

/-- C10: whenever chunk_overlap < chunk_size the chunking loop terminates and
chunk_text returns a finite chunk list (the start offset grows by the
positive step size - overlap each iteration, so `words.length` iterations of
fuel suffice); when chunk_overlap ≥ chunk_size the step is ≤ 0 and the loop
guard `start < len(words)` holds forever: no amount of fuel makes the loop
finish, so the precondition overlap < size is required for termination. -/
theorem c10_chunk_text_termination (text : Str) (size overlap : ℕ) :
    (overlap < size → ∃ chunks, chunk_text text size overlap = some chunks)
    ∧ (size ≤ overlap → size < (splitWs text).length →
        ∀ fuel : ℕ,
          chunkLoop (splitWs text) size ((size : ℤ) - (overlap : ℤ)) fuel 0 = none) := by
  constructor
  · intro hov
    by_cases htext : text = []
    · exact ⟨[], by rw [htext]; rfl⟩
    · by_cases hshort : (splitWs text).length ≤ size
      · refine ⟨[text], ?_⟩
        unfold chunk_text
        rw [if_neg htext]
        simp only
        rw [if_pos hshort]
      · rcases chunk_text_slices text size overlap hov (not_le.mp hshort) with
          ⟨slices, _, hchunk, _, _⟩
        exact ⟨slices.map joinWords, hchunk⟩
  · intro hov hlong fuel
    apply chunkLoop_none_of_nonpos_step
    · have : (size : ℤ) ≤ (overlap : ℤ) := by exact_mod_cast hov
      linarith
    · have : (0 : ℕ) < (splitWs text).length := by omega
      exact_mod_cast this

/-- C10 witness: chunking terminates on "aa bb cc" with size 2, overlap 1;
with size 1, overlap 2 (step ≤ 0) the loop returns none for every fuel. -/
theorem c10_chunk_text_termination_witness :
    (∃ chunks, chunk_text "aa bb cc".data 2 1 = some chunks)
    ∧ (∀ fuel : ℕ,
        chunkLoop (splitWs "aa bb cc".data) 1 ((1 : ℤ) - (2 : ℤ)) fuel 0 = none) := by
  refine ⟨(c10_chunk_text_termination "aa bb cc".data 2 1).1 (by decide), ?_⟩
  exact (c10_chunk_text_termination "aa bb cc".data 1 2).2 (by decide) (by decide)

/-! ### Highlighting (src/app/services/search/bm25.py, highlight_terms)

`highlight_terms` runs, for each query term,
`re.compile(re.escape(term), re.IGNORECASE).sub("<mark>" + term + "</mark>", result)`.
`re.escape` makes the pattern a literal, so the substitution replaces the
leftmost non-overlapping case-insensitive occurrences of the term, scanning
left to right, and the replacement text is the query term itself (with the
query term's casing, not the matched substring's).  The scan is embedded with
fuel (one unit per consumed character); `re.sub` with an empty pattern never
occurs for real tokens (tokenize keeps only tokens of length ≥ 2) and is
modelled as the identity. -/

/-- The opening tag literal. -/
def markOpen : Str := "<mark>".data

/-- The closing tag literal. -/
def markClose : Str := "</mark>".data

/-- ASCII case-insensitive test that s starts with term. -/
def startsWithCI (term s : Str) : Bool :=
  (s.take term.length).map Char.toLower == term.map Char.toLower

/-- Fuelled scan of one case-insensitive literal substitution pass. -/
def replaceCIF (term : Str) : ℕ → Str → Str
  | _, [] => []
  | 0, s => s
  | fuel + 1, c :: rest =>
    if !term.isEmpty && startsWithCI term (c :: rest) then
      markOpen ++ term ++ markClose
        ++ replaceCIF term fuel (rest.drop (term.length - 1))
    else c :: replaceCIF term fuel rest

/-- One `pattern.sub("<mark>" + term + "</mark>", s)` pass. -/
def replaceCI (term s : Str) : Str := replaceCIF term s.length s

/-- highlight_terms: empty text gives "", else one substitution pass per term. -/
def highlight_terms (text : Str) (terms : List Str) : Str :=
  if text = [] then []
  else terms.foldl (fun acc t => replaceCI t acc) text

/-- Index of the first (leftmost) case-insensitive occurrence of term in s,
stated declaratively via a search over all positions. -/
def firstCIMatch (term s : Str) : Option ℕ :=
  (List.range s.length).find? (fun i => startsWithCI term (s.drop i))

theorem replaceCIF_fuel (term : Str) :
    ∀ (n : ℕ) (s : Str), s.length ≤ n → ∀ f1 f2 : ℕ, s.length ≤ f1 → s.length ≤ f2 →
      replaceCIF term f1 s = replaceCIF term f2 s := by
  intro n
  induction n with
  | zero =>
    intro s hs f1 f2 _ _
    have : s = [] := List.eq_nil_of_length_eq_zero (Nat.le_zero.mp hs)
    subst this
    cases f1 <;> cases f2 <;> rfl
  | succ n ih =>
    intro s hs f1 f2 h1 h2
    cases s with
    | nil => cases f1 <;> cases f2 <;> rfl
    | cons c rest =>
      rw [List.length_cons] at hs h1 h2
      cases f1 with
      | zero => omega
      | succ g1 =>
        cases f2 with
        | zero => omega
        | succ g2 =>
          simp only [replaceCIF]
          by_cases hc : (!term.isEmpty && startsWithCI term (c :: rest)) = true
          · rw [if_pos hc, if_pos hc]
            have hdlen : (rest.drop (term.length - 1)).length ≤ rest.length := by
              rw [List.length_drop]; omega
            rw [ih (rest.drop (term.length - 1)) (by omega) g1 g2 (by omega) (by omega)]
          · rw [if_neg hc, if_neg hc]
            rw [ih rest (by omega) g1 g2 (by omega) (by omega)]

theorem replaceCI_nil (term : Str) : replaceCI term [] = [] := rfl

theorem replaceCI_cons_match (term : Str) (c : Char) (rest : Str)
    (hterm : term ≠ []) (hs : startsWithCI term (c :: rest) = true) :
    replaceCI term (c :: rest)
      = markOpen ++ term ++ markClose
        ++ replaceCI term (rest.drop (term.length - 1)) := by
  have hne : (!term.isEmpty) = true := by
    cases term with
    | nil => exact absurd rfl hterm
    | cons a b => rfl
  show replaceCIF term (rest.length + 1) (c :: rest) = _
  simp only [replaceCIF]
  rw [if_pos (by rw [hne, hs]; rfl)]
  have hdlen : (rest.drop (term.length - 1)).length ≤ rest.length := by
    rw [List.length_drop]; omega
  rw [replaceCIF_fuel term rest.length (rest.drop (term.length - 1)) hdlen
    rest.length (rest.drop (term.length - 1)).length hdlen (le_refl _)]
  rfl

theorem replaceCI_cons_nomatch (term : Str) (c : Char) (rest : Str)
    (hs : startsWithCI term (c :: rest) = false) :
    replaceCI term (c :: rest) = c :: replaceCI term rest := by
  show replaceCIF term (rest.length + 1) (c :: rest) = _
  simp only [replaceCIF]
  rw [if_neg (by rw [hs, Bool.and_false]; exact Bool.false_ne_true)]
  rfl

theorem firstCIMatch_cons (term : Str) (c : Char) (rest : Str) :
    firstCIMatch term (c :: rest)
      = if startsWithCI term (c :: rest) then some 0
        else (firstCIMatch term rest).map (· + 1) := by
  unfold firstCIMatch
  show (List.range (rest.length + 1)).find?
      (fun i => startsWithCI term ((c :: rest).drop i)) = _
  rw [List.range_succ_eq_map, List.find?_cons]
  by_cases h0 : startsWithCI term (c :: rest) = true
  · rw [if_pos h0]
    have : startsWithCI term ((c :: rest).drop 0) = true := h0
    rw [this]
  · rw [if_neg h0]
    have h0f : startsWithCI term ((c :: rest).drop 0) = false :=
      Bool.not_eq_true _ ▸ (Bool.eq_false_iff.mpr h0)
    rw [h0f]
    rw [List.find?_map]
    have hfun : ((fun i => startsWithCI term ((c :: rest).drop i)) ∘ Nat.succ)
        = (fun i => startsWithCI term (rest.drop i)) := by
      funext j
      rfl
    rw [hfun]

theorem replaceCI_no_match (term : Str) :
    ∀ s : Str, firstCIMatch term s = none → replaceCI term s = s := by
  intro s
  induction s with
  | nil => intro _; rfl
  | cons c rest ih =>
    intro hnone
    rw [firstCIMatch_cons] at hnone
    by_cases h0 : startsWithCI term (c :: rest) = true
    · rw [if_pos h0] at hnone
      exact absurd hnone (Option.noConfusion)
    · rw [if_neg h0] at hnone
      have hrest : firstCIMatch term rest = none := by
        cases hcase : firstCIMatch term rest with
        | none => rfl
        | some j => rw [hcase] at hnone; simp at hnone
      rw [replaceCI_cons_nomatch term c rest (Bool.eq_false_iff.mpr h0), ih hrest]

theorem replaceCI_first_match (term : Str) (hterm : term ≠ []) :
    ∀ (s : Str) (i : ℕ), firstCIMatch term s = some i →
      replaceCI term s
        = s.take i ++ markOpen ++ term ++ markClose
          ++ replaceCI term (s.drop (i + term.length)) := by
  intro s
  induction s with
  | nil =>
    intro i hi
    exact absurd hi (Option.noConfusion)
  | cons c rest ih =>
    intro i hi
    rw [firstCIMatch_cons] at hi
    by_cases h0 : startsWithCI term (c :: rest) = true
    · rw [if_pos h0] at hi
      have hi0 : i = 0 := (Option.some_injective _ hi).symm
      subst hi0
      rw [replaceCI_cons_match term c rest hterm h0]
      have hdrop : (c :: rest).drop (0 + term.length) = rest.drop (term.length - 1) := by
        cases term with
        | nil => exact absurd rfl hterm
        | cons a b => simp
      rw [hdrop]
      rfl
    · rw [if_neg h0] at hi
      rcases Option.map_eq_some'.mp hi with ⟨j, hj, hij⟩
      subst hij
      rw [replaceCI_cons_nomatch term c rest (Bool.eq_false_iff.mpr h0), ih j hj]
      have hdrop : (c :: rest).drop (j + 1 + term.length) = rest.drop (j + term.length) := by
        have : j + 1 + term.length = (j + term.length) + 1 := by omega
        rw [this, List.drop_succ_cons]
      rw [hdrop]
      rfl

/-- C6 counterexample: highlighting "Hello" with the raw token "hello"
produces "<mark>hello</mark>" — the query term's casing — and not
"<mark>Hello</mark>", so the original casing of the matched substring is not
preserved inside the tags. -/
theorem c6_counterexample :
    highlight_terms "Hello".data ["hello".data] = "<mark>hello</mark>".data
    ∧ highlight_terms "Hello".data ["hello".data] ≠ "<mark>Hello</mark>".data := by
  exact ⟨by decide, by decide⟩

/-- C6 amended: for every text and non-empty token, highlight_terms scans for
the leftmost case-insensitive occurrences of the token, non-overlapping and
left to right, and wraps each in mark tags — but the text placed between the
tags is the query token itself (its casing), not the matched substring: if
there is no occurrence the text is unchanged, and at the first occurrence
index i the output is `text[:i] + "<mark>" + term + "</mark>"` followed by
the same substitution applied to the remainder after the matched region. -/
theorem c6_highlight_terms (term s : Str) (hterm : term ≠ []) :
    (firstCIMatch term s = none → replaceCI term s = s)
    ∧ (∀ i : ℕ, firstCIMatch term s = some i →
        replaceCI term s
          = s.take i ++ markOpen ++ term ++ markClose
            ++ replaceCI term (s.drop (i + term.length)))
    ∧ highlight_terms s [term] = replaceCI term s := by
  refine ⟨replaceCI_no_match term s, replaceCI_first_match term hterm s, ?_⟩
  unfold highlight_terms
  by_cases hs : s = []
  · rw [if_pos hs, hs]
    rfl
  · rw [if_neg hs]
    rfl

/-- C6 witness: the amended statement instantiated at term "ab" and text
"xABy ab": no-match, first-match and fold forms all evaluated. -/
theorem c6_highlight_terms_witness :
    "ab".data ≠ ([] : Str)
    ∧ ((firstCIMatch "ab".data "xABy ab".data = none →
        replaceCI "ab".data "xABy ab".data = "xABy ab".data)
      ∧ (∀ i : ℕ, firstCIMatch "ab".data "xABy ab".data = some i →
          replaceCI "ab".data "xABy ab".data
            = ("xABy ab".data).take i ++ markOpen ++ "ab".data ++ markClose
              ++ replaceCI "ab".data (("xABy ab".data).drop (i + ("ab".data).length)))
      ∧ highlight_terms "xABy ab".data ["ab".data]
          = replaceCI "ab".data "xABy ab".data) := by
  exact ⟨by decide, c6_highlight_terms "ab".data "xABy ab".data (by decide)⟩

/-! ### Autocomplete trie (src/app/services/autocomplete.py)

`TrieNode` has a children dict (Char → TrieNode, insertion-ordered, modelled
as an association list), an is_end flag, the stored term (original casing)
and its frequency.  `insert` walks the lowercased term, creating nodes as
needed, and marks the final node; `search_prefix` walks the lowercased
prefix, DFS-collects all terminal (term, frequency) pairs under it, sorts by
`(-frequency, term)` and truncates to the limit.  `Trie.wfB` is the
reachable-state invariant: the lowercased term stored at an end node equals
the path to that node. -/

mutual

inductive Trie where
  | node (children : Children) (isEnd : Bool) (term : Str) (freq : ℕ)

inductive Children where
  | nil
  | cons (c : Char) (t : Trie) (rest : Children)

end

/-- Dict lookup `node.children.get(char)`. -/
def Children.lookup : Children → Char → Option Trie
  | .nil, _ => none
  | .cons c0 t0 rest, c => if c = c0 then some t0 else Children.lookup rest c

/-- Dict update `node.children[char] = t`: replace in place, or append. -/
def Children.set : Children → Char → Trie → Children
  | .nil, c, t => .cons c t .nil
  | .cons c0 t0 rest, c, t =>
    if c = c0 then .cons c0 t rest else .cons c0 t0 (Children.set rest c t)

/-- A fresh TrieNode(). -/
def emptyTrie : Trie := .node .nil false [] 0

/-- The insert walk over the (already lowercased) remaining path. -/
def insertAux (term : Str) (freq : ℕ) : Trie → Str → Trie
  | .node ch _ tm f, [] =>
    -- `node.is_end = True; node.term = term; node.frequency = frequency`
    Trie.node ch true term freq
  | .node ch e tm f, c :: rest =>
    let child := (Children.lookup ch c).getD emptyTrie
    Trie.node (Children.set ch c (insertAux term freq child rest)) e tm f

/-- AutocompleteTrie.insert: walk the lowercased term. -/
def insert (t : Trie) (term : Str) (freq : ℕ) : Trie :=
  insertAux term freq t (term.map Char.toLower)

mutual

/-- DFS collection of all terminal (term, frequency) pairs, current node
first, then the children in dict order. -/
def Trie.dfs : Trie → List (Str × ℕ)
  | .node ch e tm f => (if e then [(tm, f)] else []) ++ Children.dfsList ch

def Children.dfsList : Children → List (Str × ℕ)
  | .nil => []
  | .cons _ t rest => Trie.dfs t ++ Children.dfsList rest

end

/-- Walk a (lowercased) prefix from a node. -/
def walkPath : Trie → Str → Option Trie
  | t, [] => some t
  | .node ch _ _ _, c :: rest =>
    match Children.lookup ch c with
    | none => none
    | some t2 => walkPath t2 rest

/-- The Python sort key `(-frequency, term)` as an order relation:
higher frequency first, ties by term ascending. -/
def suggLe (a b : Str × ℕ) : Prop :=
  b.2 < a.2 ∨ (a.2 = b.2 ∧ lexLe a.1 b.1 = true)

instance : DecidableRel suggLe := fun a b => by
  unfold suggLe; infer_instance

instance : IsTotal (Str × ℕ) suggLe := by
  refine ⟨fun a b => ?_⟩
  rcases Nat.lt_trichotomy a.2 b.2 with h | h | h
  · exact Or.inr (Or.inl h)
  · rcases Bool.or_eq_true_iff.mp (lexLe_total a.1 b.1) with h1 | h1
    · exact Or.inl (Or.inr ⟨h, h1⟩)
    · exact Or.inr (Or.inr ⟨h.symm, h1⟩)
  · exact Or.inl (Or.inl h)

instance : IsTrans (Str × ℕ) suggLe := by
  refine ⟨fun a b c hab hbc => ?_⟩
  rcases hab with h1 | ⟨h1, h1l⟩
  · rcases hbc with h2 | ⟨h2, _⟩
    · exact Or.inl (lt_trans h2 h1)
    · exact Or.inl (h2 ▸ h1)
  · rcases hbc with h2 | ⟨h2, h2l⟩
    · exact Or.inl (h1 ▸ h2)
    · exact Or.inr ⟨h1.trans h2, lexLe_trans _ _ _ h1l h2l⟩

/-- AutocompleteTrie.search_prefix: walk the lowercased prefix, DFS, sort by
(-frequency, term), truncate to the limit. -/
def searchPrefix (t : Trie) (pre : Str) (limit : ℕ) : List (Str × ℕ) :=
  match walkPath t (pre.map Char.toLower) with
  | none => []
  | some nd => (List.insertionSort suggLe (Trie.dfs nd)).take limit

mutual

/-- Reachable-state invariant: at a node whose path from the root is pre, an
end node stores a term whose lowercasing is exactly pre. -/
def Trie.wfB : Str → Trie → Bool
  | pre, .node ch e tm _ =>
    (!e || (tm.map Char.toLower == pre)) && Children.wfB pre ch

def Children.wfB : Str → Children → Bool
  | _, .nil => true
  | pre, .cons c t rest => Trie.wfB (pre ++ [c]) t && Children.wfB pre rest

end

theorem and_true_split (a b : Bool) (h : (a && b) = true) : a = true ∧ b = true := by
  rw [Bool.and_eq_true] at h
  exact h

theorem emptyTrie_wfB (p : Str) : Trie.wfB p emptyTrie = true := rfl

theorem lookup_wfB (p : Str) (c : Char) :
    ∀ (ch : Children), Children.wfB p ch = true →
      ∀ t2, Children.lookup ch c = some t2 → Trie.wfB (p ++ [c]) t2 = true
  | .nil, _, t2, hl => by simp [Children.lookup] at hl
  | .cons c0 t0 rest, hwf, t2, hl => by
    rcases and_true_split _ _ hwf with ⟨h1, h2⟩
    rw [Children.lookup] at hl
    by_cases hc : c = c0
    · rw [if_pos hc] at hl
      rw [hc]
      rw [← Option.some_injective _ hl]
      exact h1
    · rw [if_neg hc] at hl
      exact lookup_wfB p c rest h2 t2 hl

theorem set_wfB (p : Str) (c : Char) (t2 : Trie) :
    ∀ (ch : Children), Children.wfB p ch = true → Trie.wfB (p ++ [c]) t2 = true →
      Children.wfB p (Children.set ch c t2) = true
  | .nil, _, ht2 => by
    show (Trie.wfB (p ++ [c]) t2 && Children.wfB p .nil) = true
    rw [ht2]
    rfl
  | .cons c0 t0 rest, hwf, ht2 => by
    rcases and_true_split _ _ hwf with ⟨h1, h2⟩
    rw [Children.set]
    by_cases hc : c = c0
    · rw [if_pos hc]
      show (Trie.wfB (p ++ [c0]) t2 && Children.wfB p rest) = true
      rw [← hc, ht2, h2]
      rfl
    · rw [if_neg hc]
      show (Trie.wfB (p ++ [c0]) t0 && Children.wfB p (Children.set rest c t2)) = true
      rw [h1, set_wfB p c t2 rest h2 ht2]
      rfl

theorem insertAux_wfB (term : Str) (freq : ℕ) :
    ∀ (path : Str) (t : Trie) (p : Str),
      Trie.wfB p t = true → term.map Char.toLower = p ++ path →
      Trie.wfB p (insertAux term freq t path) = true := by
  intro path
  induction path with
  | nil =>
    intro t p hwf hpath
    cases t with
    | node ch e tm f =>
      rcases and_true_split _ _ hwf with ⟨_, h2⟩
      show ((!true || (term.map Char.toLower == p)) && Children.wfB p ch) = true
      rw [List.append_nil] at hpath
      rw [hpath]
      simp [h2]
  | cons c rest ih =>
    intro t p hwf hpath
    cases t with
    | node ch e tm f =>
      rcases and_true_split _ _ hwf with ⟨h1, h2⟩
      have hchild : Trie.wfB (p ++ [c]) ((Children.lookup ch c).getD emptyTrie) = true := by
        cases hlk : Children.lookup ch c with
        | none => exact emptyTrie_wfB (p ++ [c])
        | some t2 => exact lookup_wfB p c ch h2 t2 hlk
      have hpath2 : term.map Char.toLower = (p ++ [c]) ++ rest := by
        rw [hpath]
        simp
      have hnew := ih ((Children.lookup ch c).getD emptyTrie) (p ++ [c]) hchild hpath2
      show ((!e || (tm.map Char.toLower == p))
        && Children.wfB p (Children.set ch c
            (insertAux term freq ((Children.lookup ch c).getD emptyTrie) rest))) = true
      rw [h1, set_wfB p c _ ch h2 hnew]
      rfl

theorem insert_wfB (t : Trie) (term : Str) (freq : ℕ) (hwf : Trie.wfB [] t = true) :
    Trie.wfB [] (insert t term freq) = true :=
  insertAux_wfB term freq (term.map Char.toLower) t [] hwf (List.nil_append _).symm

theorem walkPath_wfB :
    ∀ (q : Str) (t : Trie) (p : Str) (nd : Trie), Trie.wfB p t = true →
      walkPath t q = some nd → Trie.wfB (p ++ q) nd = true := by
  intro q
  induction q with
  | nil =>
    intro t p nd hwf hwalk
    cases t with
    | node ch e tm f =>
      have heq : Trie.node ch e tm f = nd := Option.some_injective _ hwalk
      rw [List.append_nil, ← heq]
      exact hwf
  | cons c rest ih =>
    intro t p nd hwf hwalk
    cases t with
    | node ch e tm f =>
      rcases and_true_split _ _ hwf with ⟨_, h2⟩
      rw [walkPath] at hwalk
      cases hlk : Children.lookup ch c with
      | none => rw [hlk] at hwalk; exact absurd hwalk (Option.noConfusion)
      | some t2 =>
        rw [hlk] at hwalk
        have hwf2 := lookup_wfB p c ch h2 t2 hlk
        have := ih t2 (p ++ [c]) nd hwf2 hwalk
        rw [List.append_assoc] at this
        exact this

mutual

theorem dfs_lower_path :
    ∀ (t : Trie) (p : Str), Trie.wfB p t = true →
      ∀ r ∈ Trie.dfs t, List.IsPrefix p (r.1.map Char.toLower)
  | .node ch e tm f, p, hwf, r, hr => by
    rcases and_true_split _ _ hwf with ⟨h1, h2⟩
    rw [Trie.dfs] at hr
    rcases List.mem_append.mp hr with hend | hch
    · cases e with
      | false => simp at hend
      | true =>
        have htm : tm.map Char.toLower = p := by
          rcases Bool.or_eq_true_iff.mp h1 with hb | hb
          · simp at hb
          · exact beq_iff_eq.mp hb
        simp only [if_true] at hend
        rcases List.mem_singleton.mp hend with rfl
        rw [htm]
    · exact dfsList_lower_path ch p h2 r hch

theorem dfsList_lower_path :
    ∀ (ch : Children) (p : Str), Children.wfB p ch = true →
      ∀ r ∈ Children.dfsList ch, List.IsPrefix p (r.1.map Char.toLower)
  | .nil, p, _, r, hr => by simp [Children.dfsList] at hr
  | .cons c t rest, p, hwf, r, hr => by
    rcases and_true_split _ _ hwf with ⟨h1, h2⟩
    rw [Children.dfsList] at hr
    rcases List.mem_append.mp hr with hin | hin
    · exact List.IsPrefix.trans (List.prefix_append p [c]) (dfs_lower_path t (p ++ [c]) h1 r hin)
    · exact dfsList_lower_path rest p h2 r hin

end

/-- C7: for every well-formed (reachable) trie, prefix and limit:
search_prefix returns at most `limit` results, sorted by frequency
non-increasing with ties by term ascending, every returned term lowercased
starts with the lowercased prefix, an unmatched prefix gives the empty
result; the empty trie is well-formed and insert preserves well-formedness,
so every trie built by inserts satisfies the hypothesis. -/
theorem c7_searchPrefix (t : Trie) (pre : Str) (limit : ℕ)
    (hwf : Trie.wfB [] t = true) :
    (searchPrefix t pre limit).length ≤ limit
    ∧ List.Pairwise suggLe (searchPrefix t pre limit)
    ∧ (∀ r ∈ searchPrefix t pre limit,
        List.IsPrefix (pre.map Char.toLower) (r.1.map Char.toLower))
    ∧ (walkPath t (pre.map Char.toLower) = none → searchPrefix t pre limit = [])
    ∧ Trie.wfB [] emptyTrie = true
    ∧ (∀ (t2 : Trie) (term : Str) (freq : ℕ), Trie.wfB [] t2 = true →
        Trie.wfB [] (insert t2 term freq) = true) := by
  refine ⟨?_, ?_, ?_, ?_, emptyTrie_wfB [], fun t2 term freq h => insert_wfB t2 term freq h⟩
  · unfold searchPrefix
    cases hwalk : walkPath t (pre.map Char.toLower) with
    | none => simp
    | some nd => exact List.length_take_le _ _
  · unfold searchPrefix
    cases hwalk : walkPath t (pre.map Char.toLower) with
    | none => exact List.Pairwise.nil
    | some nd =>
      exact List.Pairwise.sublist (List.take_sublist _ _)
        (List.sorted_insertionSort suggLe (Trie.dfs nd))
  · intro r hr
    unfold searchPrefix at hr
    cases hwalk : walkPath t (pre.map Char.toLower) with
    | none => rw [hwalk] at hr; simp at hr
    | some nd =>
      rw [hwalk] at hr
      have hmem : r ∈ Trie.dfs nd :=
        (List.mem_insertionSort suggLe).mp (List.mem_of_mem_take hr)
      have hwfnd : Trie.wfB (pre.map Char.toLower) nd = true := by
        have := walkPath_wfB (pre.map Char.toLower) t [] nd hwf hwalk
        rw [List.nil_append] at this
        exact this
      exact dfs_lower_path nd (pre.map Char.toLower) hwfnd r hmem
  · intro hnone
    unfold searchPrefix
    rw [hnone]

/-- A small reachable trie for the C7 witness: insert "ab" with frequency 2,
then "AC" with frequency 1. -/
def exampleTrie : Trie := insert (insert emptyTrie "ab".data 2) "AC".data 1

/-- C7 witness: the statement instantiated at the example trie with prefix
"A" and limit 5. -/
theorem c7_searchPrefix_witness :
    Trie.wfB [] exampleTrie = true
    ∧ ((searchPrefix exampleTrie "A".data 5).length ≤ 5
      ∧ List.Pairwise suggLe (searchPrefix exampleTrie "A".data 5)
      ∧ (∀ r ∈ searchPrefix exampleTrie "A".data 5,
          List.IsPrefix ("A".data.map Char.toLower) (r.1.map Char.toLower))
      ∧ (walkPath exampleTrie ("A".data.map Char.toLower) = none →
          searchPrefix exampleTrie "A".data 5 = [])
      ∧ Trie.wfB [] emptyTrie = true
      ∧ (∀ (t2 : Trie) (term : Str) (freq : ℕ), Trie.wfB [] t2 = true →
          Trie.wfB [] (insert t2 term freq) = true)) := by
  exact ⟨by decide, c7_searchPrefix exampleTrie "A".data 5 (by decide)⟩

/-! ### Vector indexing (src/app/services/indexer/vector_indexer.py,
index_document_vectors)

The database table of Document Embedding rows is modelled as a list of rows;
the document lookup result is an `Option Doc` (with empty clean_content
standing for both NULL and the empty string, which Python treats alike via
`if not doc or not doc.clean_content`), and the external embedding model is a
parameter `gen` that can fail (`Except`).  The code tries `gen` BEFORE the
delete, so a failure returns 0 with the rows untouched. -/

structure EmbRow where
  document_id : Str
  chunk_index : ℕ
  chunk_text : Str
  embedding : List ℚ
deriving DecidableEq

structure Doc where
  id : Str
  clean_content : Str
deriving DecidableEq

/-- The chunks that index_document_vectors submits to the embedding model
(empty when the document is missing or empty). -/
def document_chunks (doc? : Option Doc) : List Str :=
  match doc? with
  | none => []
  | some doc =>
    (chunk_text doc.clean_content chunk_size_default chunk_overlap_default).getD []

/-- index_document_vectors: load, chunk, embed, then delete old rows and
insert one row per (chunk, embedding) pair with its enumeration index.
Returns (number of chunks indexed, new table state). -/
def index_document_vectors (gen : List Str → Except Str (List (List ℚ)))
    (doc? : Option Doc) (doc_id : Str) (rows : List EmbRow) : ℕ × List EmbRow :=
  match doc? with
  | none => (0, rows)
  | some doc =>
    if doc.clean_content = [] then (0, rows)
    else
      match chunk_text doc.clean_content chunk_size_default chunk_overlap_default with
      | none => (0, rows)
      | some chunks =>
        if chunks = [] then (0, rows)
        else
          match gen chunks with
          | .error _ => (0, rows)
          | .ok embs =>
            (chunks.length,
              rows.filter (fun r => decide (r.document_id ≠ doc_id))
                ++ (chunks.zip embs).enum.map
                  (fun p => EmbRow.mk doc_id p.1 p.2.1 p.2.2))

/-- C8: if embedding generation fails on the document's chunks,
index_document_vectors returns 0 and the stored embedding rows are exactly
as before: nothing is deleted and nothing is inserted. -/
theorem c8_embedding_failure_preserves_rows
    (gen : List Str → Except Str (List (List ℚ))) (doc? : Option Doc)
    (doc_id : Str) (rows : List EmbRow) (err : Str)
    (hgen : gen (document_chunks doc?) = Except.error err) :
    index_document_vectors gen doc? doc_id rows = (0, rows) := by
  cases doc? with
  | none => rfl
  | some doc =>
    by_cases hcc : doc.clean_content = []
    · simp [index_document_vectors, hcc]
    · simp only [document_chunks] at hgen
      cases hct : chunk_text doc.clean_content chunk_size_default chunk_overlap_default with
      | none => simp [index_document_vectors, hcc, hct]
      | some chunks =>
        rw [hct] at hgen
        simp only [Option.getD_some] at hgen
        by_cases hch : chunks = []
        · simp [index_document_vectors, hcc, hct, hch]
        · simp [index_document_vectors, hcc, hct, hch, hgen]

/-- C8 witness: a failing generator on a concrete document leaves the one
pre-existing row untouched and returns 0. -/
theorem c8_embedding_failure_preserves_rows_witness :
    ((fun _ : List Str => (Except.error "boom".data : Except Str (List (List ℚ))))
        (document_chunks (some (Doc.mk "d1".data "hello world".data)))
      = Except.error "boom".data)
    ∧ index_document_vectors
        (fun _ => Except.error "boom".data)
        (some (Doc.mk "d1".data "hello world".data))
        "d1".data
        [EmbRow.mk "d1".data 0 "old chunk".data [1, 2]]
      = (0, [EmbRow.mk "d1".data 0 "old chunk".data [1, 2]]) := by
  refine ⟨rfl, ?_⟩
  exact c8_embedding_failure_preserves_rows _ _ _ _ "boom".data rfl

/-! ### Recursive RAG (src/app/services/rag/recursive.py)

`retrieve_context`, `generate_answer` and `generate_follow_up_queries` are
external effects (database and LLM); they are parameters.  The while loop
`while depth < max_depth` increments depth, asks for follow-up queries and
breaks when none are produced; it is embedded with fuel `max_depth - depth`,
which is exact because depth rises by one per iteration. -/

structure RagCtx where
  document_id : Str
  chunk_text : Str
  relevance_score : ℚ
deriving DecidableEq

structure RagAnswer where
  answer : Str
  model : Str

structure RagState where
  all_contexts : List RagCtx
  queries_executed : List Str
  current_answer : Str
  last_model : Str
  depth : ℕ

/-- Relevance-descending order used by `all_contexts.sort(key=..., reverse=True)`. -/
def relDesc (a b : RagCtx) : Prop := b.relevance_score ≤ a.relevance_score

instance : DecidableRel relDesc := fun a b => by
  unfold relDesc; infer_instance

/-- The duplicate-avoiding merge of newly retrieved contexts into the
accumulated ones (`if ctx.document_id not in seen_ids: append`). -/
def mergeContexts (all : List RagCtx) (newCtxs : List RagCtx) : List RagCtx :=
  newCtxs.foldl
    (fun acc ctx =>
      if (acc.map RagCtx.document_id).contains ctx.document_id then acc
      else acc ++ [ctx])
    all

/-- The refinement while-loop of recursive_rag. -/
def ragLoop (retrieve : Str → ℕ → List RagCtx)
    (genAnswer : Str → List RagCtx → RagAnswer)
    (genFollowUps : Str → Str → List Str) (query : Str) (top_k : ℕ) :
    ℕ → RagState → RagState
  | 0, st => st
  | fuel + 1, st =>
    let st1 : RagState := { st with depth := st.depth + 1 }
    let follow_ups := genFollowUps query st1.current_answer
    if follow_ups = [] then st1
    else
      let st2 : RagState :=
        { st1 with queries_executed := st1.queries_executed ++ follow_ups }
      let new_contexts := (follow_ups.map (fun fq => retrieve fq 3)).join
      if new_contexts = [] then st2
      else
        let merged := mergeContexts st2.all_contexts new_contexts
        let sorted := List.insertionSort relDesc merged
        let result := genAnswer query (sorted.take (top_k * 2))
        ragLoop retrieve genAnswer genFollowUps query top_k fuel
          { all_contexts := sorted,
            queries_executed := st2.queries_executed,
            current_answer := result.answer,
            last_model := result.model,
            depth := st2.depth }

/-- recursive_rag: initial retrieval and answer, then the refinement loop up
to max_depth times.  The returned state carries answer (= "answer"),
depth (= "depth_reached") and queries_executed. -/
def recursive_rag (retrieve : Str → ℕ → List RagCtx)
    (genAnswer : Str → List RagCtx → RagAnswer)
    (genFollowUps : Str → Str → List Str)
    (query : Str) (max_depth top_k : ℕ) : RagState :=
  let contexts := retrieve query top_k
  let result := genAnswer query contexts
  ragLoop retrieve genAnswer genFollowUps query top_k max_depth
    { all_contexts := contexts,
      queries_executed := [query],
      current_answer := result.answer,
      last_model := result.model,
      depth := 0 }

/-- C9: for max_depth ≥ 1, if the follow-up generator returns no queries on
its first invocation (on the original query and the initial answer), then
recursive_rag stops with depth_reached = 1, the answer equal to the initial
answer, and queries_executed = the singleton original query. -/
theorem c9_recursive_rag_empty_followups (retrieve : Str → ℕ → List RagCtx)
    (genAnswer : Str → List RagCtx → RagAnswer)
    (genFollowUps : Str → Str → List Str) (query : Str) (max_depth top_k : ℕ)
    (hmax : 1 ≤ max_depth)
    (hfu : genFollowUps query (genAnswer query (retrieve query top_k)).answer = []) :
    (recursive_rag retrieve genAnswer genFollowUps query max_depth top_k).depth = 1
    ∧ (recursive_rag retrieve genAnswer genFollowUps query max_depth top_k).current_answer
        = (genAnswer query (retrieve query top_k)).answer
    ∧ (recursive_rag retrieve genAnswer genFollowUps query max_depth top_k).queries_executed
        = [query] := by
  cases max_depth with
  | zero => omega
  | succ n =>
    simp only [recursive_rag, ragLoop]
    rw [hfu]
    simp

/-- C9 witness: a constant answerer and an always-empty follow-up generator
with max_depth = 2 stop at depth 1 with the initial answer and the single
original query. -/
theorem c9_recursive_rag_empty_followups_witness :
    (1 ≤ 2
      ∧ (fun _ _ : Str => ([] : List Str)) "q".data
          ((fun _ _ => RagAnswer.mk "ans".data "m".data) "q".data
            ((fun _ _ => ([] : List RagCtx)) "q".data 5)).answer = [])
    ∧ ((recursive_rag (fun _ _ => []) (fun _ _ => RagAnswer.mk "ans".data "m".data)
          (fun _ _ => []) "q".data 2 5).depth = 1
      ∧ (recursive_rag (fun _ _ => []) (fun _ _ => RagAnswer.mk "ans".data "m".data)
          (fun _ _ => []) "q".data 2 5).current_answer
          = ((fun _ _ => RagAnswer.mk "ans".data "m".data) "q".data
              ((fun _ _ => ([] : List RagCtx)) "q".data 5)).answer
      ∧ (recursive_rag (fun _ _ => []) (fun _ _ => RagAnswer.mk "ans".data "m".data)
          (fun _ _ => []) "q".data 2 5).queries_executed = ["q".data]) := by
  refine ⟨⟨by omega, rfl⟩, ?_⟩
  exact c9_recursive_rag_empty_followups (fun _ _ => [])
    (fun _ _ => RagAnswer.mk "ans".data "m".data) (fun _ _ => [])
    "q".data 2 5 (by omega) rfl

end Hyperseek
